import Mathlib

/-!
Verification development for the deepseek-translator repository.

The repository's core is an incremental i18n-catalog translation pipeline
working on nested JSON objects (string keys, values either terminal leaves
or nested objects).  We embed the JSON trees as association lists
(Python dicts preserve insertion order and have unique keys; the
uniqueness is captured by the well-formedness predicate `wfTree`) and
translate the functions `count_keys`, `compute_diff`, `deep_merge` and the
`translate_file` pipeline from `src/main.py` / `src/src/deepseek_translator/cli.py`.
-/

set_option autoImplicit false

namespace DeepseekTranslator

/-- A JSON value as handled by the tool: either a terminal leaf (string or
any other non-dict JSON scalar, opaque to the pipeline) or a nested object
with string keys.  Mirrors the dynamic `Dict[str, Any]` of the source. -/
inductive JValue where
  | leaf (s : String)
  | obj (entries : List (String × JValue))
deriving Repr

/-- A language catalog: a JSON object, i.e. an ordered association list from
string keys to values (`Dict[str, Any]` in the source). -/
abbrev Tree := List (String × JValue)

/-- Python `key in d` / `d[key]`: first (and in a real dict only) binding of
a key in an association list. -/
def lookup (k : String) : Tree → Option JValue
  | [] => none
  | (k2, v) :: rest => if k2 = k then some v else lookup k rest

/-- Python `d[key] = value`: replace the value of an existing key in place
(keeping its position), or append a new binding at the end. -/
def setKey : Tree → String → JValue → Tree
  | [], k, v => [(k, v)]
  | (k2, v2) :: rest, k, v =>
      if k2 = k then (k, v) :: rest else (k2, v2) :: setKey rest k v

/-- Python `isinstance(value, dict)`. -/
def isObj : JValue → Bool
  | .leaf _ => false
  | .obj _ => true

/-- Translation of `count_keys` (main.py lines 25-33, cli.py lines 46-54):
count the terminal (non-dict) values of a nested dictionary. -/
def count_keys : Tree → Nat
  | [] => 0
  | (_, .leaf _) :: rest => 1 + count_keys rest
  | (_, .obj t) :: rest => count_keys t + count_keys rest
termination_by t => sizeOf t
decreasing_by all_goals (simp_wf <;> omega)

/-- Translation of `compute_diff` (main.py lines 36-50, cli.py lines 57-71):
for each key of `source`, copy its whole value when the key is absent from
`target`; when both sides hold dicts, recurse and keep the nested diff only
when non-empty (Python truthiness of a dict); otherwise omit the key. -/
def compute_diff : Tree → Tree → Tree
  | [], _ => []
  | (k, v) :: rest, target =>
      match lookup k target with
      | none => (k, v) :: compute_diff rest target
      | some tv =>
        match v, tv with
        | .obj s, .obj t =>
          match compute_diff s t with
          | [] => compute_diff rest target
          | d :: ds => (k, .obj (d :: ds)) :: compute_diff rest target
        | _, _ => compute_diff rest target
termination_by s _ => sizeOf s
decreasing_by all_goals (simp_wf <;> omega)

/-- Translation of `deep_merge` (main.py lines 53-62, cli.py lines 74-83):
for each binding of `ext`, recursively merge when the key exists in `target`
and both values are dicts, otherwise assign `target[key] = value`.  The
Python function mutates `target` in place; the embedding returns the
mutated dictionary. -/
def deep_merge (target : Tree) : Tree → Tree
  | [] => target
  | (k, .leaf s) :: rest => deep_merge (setKey target k (.leaf s)) rest
  | (k, .obj vv) :: rest =>
      match lookup k target with
      | some (.obj tt) => deep_merge (setKey target k (.obj (deep_merge tt vv))) rest
      | _ => deep_merge (setKey target k (.obj vv)) rest
termination_by ext => sizeOf ext
decreasing_by all_goals (simp_wf <;> omega)

/-- Well-formedness of a value: every object reachable from it has pairwise
distinct keys.  Every tree produced by Python's `json.load` satisfies this,
since Python dicts cannot hold duplicate keys. -/
def wfVal : JValue → Bool
  | .leaf _ => true
  | .obj [] => true
  | .obj ((k, v) :: rest) =>
      (lookup k rest).isNone && wfVal v && wfVal (.obj rest)
termination_by v => sizeOf v
decreasing_by all_goals (simp_wf <;> omega)

/-- Well-formedness of a tree: distinct keys at every level. -/
def wfTree (t : Tree) : Bool := wfVal (.obj t)

/-- Value addressed by a (non-empty) path of keys: each intermediate key
must resolve to a nested object, the final key may resolve to anything. -/
def getPath : Tree → List String → Option JValue
  | _, [] => none
  | t, [k] => lookup k t
  | t, k :: k2 :: ks =>
      match lookup k t with
      | some (.obj t2) => getPath t2 (k2 :: ks)
      | _ => none

/-- A path is present in a tree when it addresses a value. -/
def hasPath (t : Tree) (p : List String) : Bool := (getPath t p).isSome

/-- The traversal of a path fails at an absent key: every step before the
failure resolves to a nested object, and then some key is simply missing.
(A traversal blocked by a leaf at an intermediate step is NOT key-missing:
that is the structural-mismatch situation the diff policy skips.) -/
def keyMissing : Tree → List String → Bool
  | _, [] => false
  | t, [k] => (lookup k t).isNone
  | t, k :: k2 :: ks =>
      match lookup k t with
      | none => true
      | some (.obj t2) => keyMissing t2 (k2 :: ks)
      | some (.leaf _) => false

/-- Result of loading a JSON artifact (main.py lines 124-142, cli.py lines
122-141): the file loads to a tree, does not exist, or fails to load
(unreadable or malformed JSON, which the source re-raises). -/
inductive LoadResult where
  | ok (t : Tree)
  | notFound
  | failed
deriving Repr

/-- Outcome of the provider call followed by `json.loads` on its text
(main.py lines 157-172, cli.py lines 154-169): either the response text
parses to a tree, or it is not valid JSON and the raw text is kept. -/
inductive Response where
  | valid (t : Tree)
  | invalid (raw : String)
deriving Repr

/-- How one pipeline run ends. -/
inductive Outcome where
  | loadError
  | noop
  | parseError (raw : String)
  | done (added : Nat)
deriving Repr

/-- Observable result of one pipeline run: how many provider requests were
made, what (if anything) was written to the target file, and the outcome.
`written = none` models that the target artifact is left untouched. -/
structure RunResult where
  providerCalls : Nat
  written : Option Tree
  outcome : Outcome
deriving Repr

/-- Core of `translate_file` / `main` after loading (main.py lines 144-187,
cli.py lines 143-188): compute the diff; when it is empty (falsy dict)
return without calling the provider and without writing; otherwise call
the provider once, fail with the raw text when the response does not parse,
else merge into the target and write the merged tree, reporting
`count_keys` of the parsed response. -/
def run_pipeline (source target : Tree) (provider : Tree → Response) : RunResult :=
  match compute_diff source target with
  | [] => ⟨0, none, .noop⟩
  | d :: ds =>
    match provider (d :: ds) with
    | .invalid raw => ⟨1, none, .parseError raw⟩
    | .valid td => ⟨1, some (deep_merge target td), .done (count_keys td)⟩

/-- Translation of `translate_file` (cli.py lines 110-188; `main` in
main.py is the same pipeline): a source file that is missing or malformed
aborts the run; a missing target file is replaced by an empty tree; a
present-but-malformed target aborts; then the core pipeline runs. -/
def translate_file (src tgt : LoadResult) (provider : Tree → Response) : RunResult :=
  match src with
  | .notFound => ⟨0, none, .loadError⟩
  | .failed => ⟨0, none, .loadError⟩
  | .ok s =>
    match tgt with
    | .failed => ⟨0, none, .loadError⟩
    | .notFound => run_pipeline s [] provider
    | .ok t => run_pipeline s t provider

/-! ### Basic lemmas about `lookup`, `setKey` and well-formedness -/

lemma lookup_setKey_self (t : Tree) (k : String) (v : JValue) :
    lookup k (setKey t k v) = some v := by
  induction t with
  | nil => simp [setKey, lookup]
  | cons hd rest ih =>
    obtain ⟨k2, v2⟩ := hd
    by_cases hk : k2 = k
    · simp [setKey, hk, lookup]
    · simp [setKey, hk, lookup, ih]

lemma lookup_setKey_ne (t : Tree) (k j : String) (v : JValue) (h : k ≠ j) :
    lookup j (setKey t k v) = lookup j t := by
  induction t with
  | nil => simp [setKey, lookup, h]
  | cons hd rest ih =>
    obtain ⟨k2, v2⟩ := hd
    by_cases hk : k2 = k
    · subst hk; simp [setKey, lookup, h]
    · simp [setKey, hk, lookup, ih]

lemma sizeOf_lookup (t : Tree) (k : String) (v : JValue) (h : lookup k t = some v) :
    sizeOf v < sizeOf t := by
  induction t with
  | nil => simp [lookup] at h
  | cons hd rest ih =>
    obtain ⟨k2, v2⟩ := hd
    simp only [lookup] at h
    by_cases hk : k2 = k
    · rw [if_pos hk] at h
      cases h
      simp
      omega
    · rw [if_neg hk] at h
      have := ih h
      simp
      omega

lemma wfTree_nil : wfTree [] = true := by simp [wfTree, wfVal]

lemma wfTree_cons (k : String) (v : JValue) (rest : Tree) :
    wfTree ((k, v) :: rest) =
      ((lookup k rest).isNone && wfVal v && wfTree rest) := by
  simp [wfTree, wfVal]

lemma wfVal_lookup (t : Tree) (k : String) (v : JValue)
    (hw : wfTree t = true) (h : lookup k t = some v) : wfVal v = true := by
  induction t with
  | nil => simp [lookup] at h
  | cons hd rest ih =>
    obtain ⟨k2, v2⟩ := hd
    rw [wfTree_cons] at hw
    simp only [Bool.and_eq_true] at hw
    simp only [lookup] at h
    by_cases hk : k2 = k
    · rw [if_pos hk] at h
      cases h
      exact hw.1.2
    · rw [if_neg hk] at h
      exact ih hw.2 h

lemma wfTree_lookup_obj (t : Tree) (k : String) (s : Tree)
    (hw : wfTree t = true) (h : lookup k t = some (.obj s)) : wfTree s = true :=
  wfVal_lookup t k (.obj s) hw h

lemma eq_nil_of_forall_lookup_none (t : Tree) (h : ∀ k, lookup k t = none) :
    t = [] := by
  cases t with
  | nil => rfl
  | cons hd rest =>
    obtain ⟨k, v⟩ := hd
    have := h k
    simp [lookup] at this

lemma getPath_nil (p : List String) : getPath ([] : Tree) p = none := by
  match p with
  | [] => simp [getPath]
  | [k] => simp [getPath, lookup]
  | k :: k2 :: ks => simp [getPath, lookup]

lemma hasPath_nil (p : List String) : hasPath ([] : Tree) p = false := by
  simp [hasPath, getPath_nil]

/-! ### Lookup characterization of `compute_diff` -/

lemma lookup_diff_of_source_none (S T : Tree) (k : String) (h : lookup k S = none) :
    lookup k (compute_diff S T) = none := by
  induction S with
  | nil => simp [compute_diff, lookup]
  | cons hd rest ih =>
    obtain ⟨k1, v1⟩ := hd
    simp only [lookup] at h
    by_cases hk : k1 = k
    · simp [hk] at h
    · rw [if_neg hk] at h
      simp only [compute_diff]
      split
      · simp [lookup, hk, ih h]
      · split
        · split
          · exact ih h
          · simp [lookup, hk, ih h]
        · exact ih h

lemma lookup_diff_of_target_none (S T : Tree) (k : String) (v : JValue)
    (hS : lookup k S = some v) (hT : lookup k T = none) :
    lookup k (compute_diff S T) = some v := by
  induction S with
  | nil => simp [lookup] at hS
  | cons hd rest ih =>
    obtain ⟨k1, v1⟩ := hd
    simp only [lookup] at hS
    by_cases hk : k1 = k
    · rw [if_pos hk] at hS
      cases hS
      subst hk
      simp only [compute_diff, hT]
      simp [lookup]
    · rw [if_neg hk] at hS
      simp only [compute_diff]
      split
      · simp [lookup, hk, ih hS]
      · split
        · split
          · exact ih hS
          · simp [lookup, hk, ih hS]
        · exact ih hS

lemma lookup_diff_of_target_leaf (S T : Tree) (k : String) (w : String)
    (hT : lookup k T = some (.leaf w)) :
    lookup k (compute_diff S T) = none := by
  induction S with
  | nil => simp [compute_diff, lookup]
  | cons hd rest ih =>
    obtain ⟨k1, v1⟩ := hd
    by_cases hk : k1 = k
    · subst hk
      simp only [compute_diff, hT]
      cases v1 <;> exact ih
    · simp only [compute_diff]
      split
      · simp [lookup, hk, ih]
      · split
        · split
          · exact ih
          · simp [lookup, hk, ih]
        · exact ih

lemma lookup_diff_of_source_leaf (S T : Tree) (k : String) (s : String) (w : JValue)
    (hw : wfTree S = true) (hS : lookup k S = some (.leaf s)) (hT : lookup k T = some w) :
    lookup k (compute_diff S T) = none := by
  induction S with
  | nil => simp [lookup] at hS
  | cons hd rest ih =>
    obtain ⟨k1, v1⟩ := hd
    rw [wfTree_cons] at hw
    simp only [Bool.and_eq_true] at hw
    simp only [lookup] at hS
    by_cases hk : k1 = k
    · rw [if_pos hk] at hS
      cases hS
      subst hk
      have hrest : lookup k1 rest = none := by
        cases h2 : lookup k1 rest
        · rfl
        · rw [h2] at hw; simp at hw
      simp only [compute_diff, hT]
      exact lookup_diff_of_source_none rest T k1 hrest
    · rw [if_neg hk] at hS
      simp only [compute_diff]
      split
      · simp [lookup, hk, ih hw.2 hS]
      · split
        · split
          · exact ih hw.2 hS
          · simp [lookup, hk, ih hw.2 hS]
        · exact ih hw.2 hS

lemma lookup_diff_of_obj_obj_nil (S T : Tree) (k : String) (s t : Tree)
    (hw : wfTree S = true) (hS : lookup k S = some (.obj s)) (hT : lookup k T = some (.obj t))
    (hd : compute_diff s t = []) :
    lookup k (compute_diff S T) = none := by
  induction S with
  | nil => simp [lookup] at hS
  | cons hd0 rest ih =>
    obtain ⟨k1, v1⟩ := hd0
    rw [wfTree_cons] at hw
    simp only [Bool.and_eq_true] at hw
    simp only [lookup] at hS
    by_cases hk : k1 = k
    · rw [if_pos hk] at hS
      cases hS
      subst hk
      have hrest : lookup k1 rest = none := by
        cases h2 : lookup k1 rest
        · rfl
        · rw [h2] at hw; simp at hw
      simp only [compute_diff, hT, hd]
      exact lookup_diff_of_source_none rest T k1 hrest
    · rw [if_neg hk] at hS
      simp only [compute_diff]
      split
      · simp [lookup, hk, ih hw.2 hS]
      · split
        · split
          · exact ih hw.2 hS
          · simp [lookup, hk, ih hw.2 hS]
        · exact ih hw.2 hS

lemma lookup_diff_of_obj_obj_ne_nil (S T : Tree) (k : String) (s t : Tree)
    (hw : wfTree S = true) (hS : lookup k S = some (.obj s)) (hT : lookup k T = some (.obj t))
    (hd : compute_diff s t ≠ []) :
    lookup k (compute_diff S T) = some (.obj (compute_diff s t)) := by
  induction S with
  | nil => simp [lookup] at hS
  | cons hd0 rest ih =>
    obtain ⟨k1, v1⟩ := hd0
    rw [wfTree_cons] at hw
    simp only [Bool.and_eq_true] at hw
    simp only [lookup] at hS
    by_cases hk : k1 = k
    · rw [if_pos hk] at hS
      cases hS
      subst hk
      cases hnd : compute_diff s t with
      | nil => exact absurd hnd hd
      | cons d ds =>
        simp only [compute_diff, hT, hnd]
        simp [lookup]
    · rw [if_neg hk] at hS
      simp only [compute_diff]
      split
      · simp [lookup, hk, ih hw.2 hS]
      · split
        · split
          · exact ih hw.2 hS
          · simp [lookup, hk, ih hw.2 hS]
        · exact ih hw.2 hS

/-- Inversion: with distinct keys in the source, a key can appear in the
diff in exactly two ways — the key is absent from the target (and the whole
source value is copied), or both sides are objects with a non-empty nested
diff. -/
lemma lookup_diff_inv (S T : Tree) (k : String) (d : JValue)
    (hw : wfTree S = true) (h : lookup k (compute_diff S T) = some d) :
    (lookup k S = some d ∧ lookup k T = none) ∨
    (∃ s t, lookup k S = some (.obj s) ∧ lookup k T = some (.obj t) ∧
      compute_diff s t ≠ [] ∧ d = .obj (compute_diff s t)) := by
  cases hS : lookup k S with
  | none =>
    rw [lookup_diff_of_source_none S T k hS] at h
    cases h
  | some v =>
    cases hT : lookup k T with
    | none =>
      rw [lookup_diff_of_target_none S T k v hS hT] at h
      injection h with h2
      subst h2
      exact Or.inl ⟨rfl, rfl⟩
    | some w =>
      cases w with
      | leaf ws =>
        rw [lookup_diff_of_target_leaf S T k ws hT] at h
        cases h
      | obj t =>
        cases v with
        | leaf vs =>
          rw [lookup_diff_of_source_leaf S T k vs (.obj t) hw hS hT] at h
          cases h
        | obj s =>
          cases hnd : compute_diff s t with
          | nil =>
            rw [lookup_diff_of_obj_obj_nil S T k s t hw hS hT hnd] at h
            cases h
          | cons d0 ds =>
            have hne : compute_diff s t ≠ [] := by rw [hnd]; simp
            rw [lookup_diff_of_obj_obj_ne_nil S T k s t hw hS hT hne] at h
            injection h with h2
            subst h2
            exact Or.inr ⟨s, t, rfl, rfl, hne, rfl⟩

/-! ### Lookup characterization of `deep_merge` -/

lemma lookup_merge_of_ext_none (T A : Tree) (k : String) (h : lookup k A = none) :
    lookup k (deep_merge T A) = lookup k T := by
  induction A generalizing T with
  | nil => simp [deep_merge]
  | cons hd rest ih =>
    obtain ⟨k1, v1⟩ := hd
    simp only [lookup] at h
    by_cases hk : k1 = k
    · simp [hk] at h
    · rw [if_neg hk] at h
      cases v1 with
      | leaf s =>
        simp only [deep_merge]
        rw [ih _ h, lookup_setKey_ne _ _ _ _ hk]
      | obj vv =>
        simp only [deep_merge]
        split
        · rw [ih _ h, lookup_setKey_ne _ _ _ _ hk]
        · rw [ih _ h, lookup_setKey_ne _ _ _ _ hk]

lemma lookup_merge_of_ext_leaf (T A : Tree) (k : String) (s : String)
    (hw : wfTree A = true) (h : lookup k A = some (.leaf s)) :
    lookup k (deep_merge T A) = some (.leaf s) := by
  induction A generalizing T with
  | nil => simp [lookup] at h
  | cons hd rest ih =>
    obtain ⟨k1, v1⟩ := hd
    rw [wfTree_cons] at hw
    simp only [Bool.and_eq_true] at hw
    simp only [lookup] at h
    by_cases hk : k1 = k
    · rw [if_pos hk] at h
      cases h
      subst hk
      have hrest : lookup k1 rest = none := by
        cases h2 : lookup k1 rest
        · rfl
        · rw [h2] at hw; simp at hw
      simp only [deep_merge]
      rw [lookup_merge_of_ext_none _ _ _ hrest, lookup_setKey_self]
    · rw [if_neg hk] at h
      cases v1 with
      | leaf s2 =>
        simp only [deep_merge]
        exact ih _ hw.2 h
      | obj vv =>
        simp only [deep_merge]
        split
        · exact ih _ hw.2 h
        · exact ih _ hw.2 h

lemma lookup_merge_obj_obj (T A : Tree) (k : String) (a t : Tree)
    (hw : wfTree A = true) (hA : lookup k A = some (.obj a))
    (hT : lookup k T = some (.obj t)) :
    lookup k (deep_merge T A) = some (.obj (deep_merge t a)) := by
  induction A generalizing T with
  | nil => simp [lookup] at hA
  | cons hd rest ih =>
    obtain ⟨k1, v1⟩ := hd
    rw [wfTree_cons] at hw
    simp only [Bool.and_eq_true] at hw
    simp only [lookup] at hA
    by_cases hk : k1 = k
    · rw [if_pos hk] at hA
      cases hA
      subst hk
      have hrest : lookup k1 rest = none := by
        cases h2 : lookup k1 rest
        · rfl
        · rw [h2] at hw; simp at hw
      simp only [deep_merge, hT]
      rw [lookup_merge_of_ext_none _ _ _ hrest, lookup_setKey_self]
    · rw [if_neg hk] at hA
      cases v1 with
      | leaf s2 =>
        simp only [deep_merge]
        refine ih _ hw.2 hA ?_
        rw [lookup_setKey_ne _ _ _ _ hk, hT]
      | obj vv =>
        simp only [deep_merge]
        split
        · refine ih _ hw.2 hA ?_
          rw [lookup_setKey_ne _ _ _ _ hk, hT]
        · refine ih _ hw.2 hA ?_
          rw [lookup_setKey_ne _ _ _ _ hk, hT]

lemma lookup_merge_obj_none (T A : Tree) (k : String) (a : Tree)
    (hw : wfTree A = true) (hA : lookup k A = some (.obj a))
    (hT : lookup k T = none) :
    lookup k (deep_merge T A) = some (.obj a) := by
  induction A generalizing T with
  | nil => simp [lookup] at hA
  | cons hd rest ih =>
    obtain ⟨k1, v1⟩ := hd
    rw [wfTree_cons] at hw
    simp only [Bool.and_eq_true] at hw
    simp only [lookup] at hA
    by_cases hk : k1 = k
    · rw [if_pos hk] at hA
      cases hA
      subst hk
      have hrest : lookup k1 rest = none := by
        cases h2 : lookup k1 rest
        · rfl
        · rw [h2] at hw; simp at hw
      simp only [deep_merge, hT]
      rw [lookup_merge_of_ext_none _ _ _ hrest, lookup_setKey_self]
    · rw [if_neg hk] at hA
      cases v1 with
      | leaf s2 =>
        simp only [deep_merge]
        refine ih _ hw.2 hA ?_
        rw [lookup_setKey_ne _ _ _ _ hk, hT]
      | obj vv =>
        simp only [deep_merge]
        split
        · refine ih _ hw.2 hA ?_
          rw [lookup_setKey_ne _ _ _ _ hk, hT]
        · refine ih _ hw.2 hA ?_
          rw [lookup_setKey_ne _ _ _ _ hk, hT]

lemma lookup_merge_obj_leaf (T A : Tree) (k : String) (a : Tree) (s : String)
    (hw : wfTree A = true) (hA : lookup k A = some (.obj a))
    (hT : lookup k T = some (.leaf s)) :
    lookup k (deep_merge T A) = some (.obj a) := by
  induction A generalizing T with
  | nil => simp [lookup] at hA
  | cons hd rest ih =>
    obtain ⟨k1, v1⟩ := hd
    rw [wfTree_cons] at hw
    simp only [Bool.and_eq_true] at hw
    simp only [lookup] at hA
    by_cases hk : k1 = k
    · rw [if_pos hk] at hA
      cases hA
      subst hk
      have hrest : lookup k1 rest = none := by
        cases h2 : lookup k1 rest
        · rfl
        · rw [h2] at hw; simp at hw
      simp only [deep_merge, hT]
      rw [lookup_merge_of_ext_none _ _ _ hrest, lookup_setKey_self]
    · rw [if_neg hk] at hA
      cases v1 with
      | leaf s2 =>
        simp only [deep_merge]
        refine ih _ hw.2 hA ?_
        rw [lookup_setKey_ne _ _ _ _ hk, hT]
      | obj vv =>
        simp only [deep_merge]
        split
        · refine ih _ hw.2 hA ?_
          rw [lookup_setKey_ne _ _ _ _ hk, hT]
        · refine ih _ hw.2 hA ?_
          rw [lookup_setKey_ne _ _ _ _ hk, hT]

/-- Merging never removes a key of the target. -/
lemma lookup_merge_isSome (T A : Tree) (k : String) (h : (lookup k T).isSome) :
    (lookup k (deep_merge T A)).isSome := by
  induction A generalizing T with
  | nil => simpa [deep_merge] using h
  | cons hd rest ih =>
    obtain ⟨k1, v1⟩ := hd
    have hstep : ∀ (x : JValue), (lookup k (setKey T k1 x)).isSome := by
      intro x
      by_cases hk : k1 = k
      · subst hk; rw [lookup_setKey_self]; rfl
      · rw [lookup_setKey_ne _ _ _ _ hk]; exact h
    cases v1 with
    | leaf s =>
      simp only [deep_merge]
      exact ih _ (hstep _)
    | obj vv =>
      simp only [deep_merge]
      split
      · exact ih _ (hstep _)
      · exact ih _ (hstep _)

/-! ### Size and strong-induction helpers -/

lemma sizeOf_tree_pos (t : Tree) : 0 < sizeOf t := by
  cases t <;> simp_arith

/-! ### Well-formedness of diffs, and diffs of contained trees -/

lemma wfTree_compute_diff_aux (n : Nat) : ∀ (S T : Tree), sizeOf S ≤ n →
    wfTree S = true → wfTree T = true → wfTree (compute_diff S T) = true := by
  induction n with
  | zero =>
    intro S T hsz _ _
    exact absurd hsz (by have := sizeOf_tree_pos S; omega)
  | succ n ih =>
    intro S T hsz hwS hwT
    cases S with
    | nil => simpa [compute_diff] using wfTree_nil
    | cons hd rest =>
      obtain ⟨k1, v1⟩ := hd
      rw [wfTree_cons] at hwS
      simp only [Bool.and_eq_true] at hwS
      have hszrest : sizeOf rest ≤ n := by simp at hsz; omega
      have hrest1 : lookup k1 rest = none := Option.isNone_iff_eq_none.mp hwS.1.1
      cases hT : lookup k1 T with
      | none =>
        simp only [compute_diff, hT]
        rw [wfTree_cons]
        simp only [Bool.and_eq_true]
        refine ⟨⟨?_, hwS.1.2⟩, ih rest T hszrest hwS.2 hwT⟩
        rw [lookup_diff_of_source_none rest T k1 hrest1]
        rfl
      | some tv =>
        cases v1 with
        | leaf s =>
          cases tv with
          | leaf w =>
            simp only [compute_diff, hT]
            exact ih rest T hszrest hwS.2 hwT
          | obj t =>
            simp only [compute_diff, hT]
            exact ih rest T hszrest hwS.2 hwT
        | obj s =>
          cases tv with
          | leaf w =>
            simp only [compute_diff, hT]
            exact ih rest T hszrest hwS.2 hwT
          | obj t =>
            have hszs : sizeOf s ≤ n := by simp at hsz; omega
            have hwt : wfTree t = true := wfTree_lookup_obj T k1 t hwT hT
            have hws : wfTree s = true := hwS.1.2
            cases hnd : compute_diff s t with
            | nil =>
              simp only [compute_diff, hT, hnd]
              exact ih rest T hszrest hwS.2 hwT
            | cons d ds =>
              simp only [compute_diff, hT, hnd]
              rw [wfTree_cons]
              simp only [Bool.and_eq_true]
              refine ⟨⟨?_, ?_⟩, ih rest T hszrest hwS.2 hwT⟩
              · rw [lookup_diff_of_source_none rest T k1 hrest1]
                rfl
              · show wfTree (d :: ds) = true
                rw [← hnd]
                exact ih s t hszs hws hwt

lemma wfTree_compute_diff (S T : Tree) (hwS : wfTree S = true) (hwT : wfTree T = true) :
    wfTree (compute_diff S T) = true :=
  wfTree_compute_diff_aux (sizeOf S) S T le_rfl hwS hwT

lemma compute_diff_nil_of_contained_aux (n : Nat) : ∀ (S T : Tree), sizeOf S ≤ n →
    wfTree S = true → (∀ k v, lookup k S = some v → lookup k T = some v) →
    compute_diff S T = [] := by
  induction n with
  | zero =>
    intro S T hsz _ _
    exact absurd hsz (by have := sizeOf_tree_pos S; omega)
  | succ n ih =>
    intro S T hsz hwS hcont
    cases S with
    | nil => simp [compute_diff]
    | cons hd rest =>
      obtain ⟨k1, v1⟩ := hd
      rw [wfTree_cons] at hwS
      simp only [Bool.and_eq_true] at hwS
      have hszrest : sizeOf rest ≤ n := by simp at hsz; omega
      have hrest1 : lookup k1 rest = none := Option.isNone_iff_eq_none.mp hwS.1.1
      have h1 : lookup k1 T = some v1 := hcont k1 v1 (by simp [lookup])
      have hcont2 : ∀ k v, lookup k rest = some v → lookup k T = some v := by
        intro k v hkv
        have hk1 : k1 ≠ k := by
          intro he
          subst he
          rw [hrest1] at hkv
          cases hkv
        refine hcont k v ?_
        simp [lookup, if_neg hk1, hkv]
      cases v1 with
      | leaf s =>
        simp only [compute_diff, h1]
        exact ih rest T hszrest hwS.2 hcont2
      | obj s =>
        have hszs : sizeOf s ≤ n := by simp at hsz; omega
        have hss : compute_diff s s = [] :=
          ih s s hszs hwS.1.2 (fun k v h => h)
        simp only [compute_diff, h1, hss]
        exact ih rest T hszrest hwS.2 hcont2

/-- `compute_diff S S` is empty for well-formed `S`. -/
lemma compute_diff_self (S : Tree) (hw : wfTree S = true) : compute_diff S S = [] :=
  compute_diff_nil_of_contained_aux (sizeOf S) S S le_rfl hw (fun _ _ h => h)

/-! ### A non-empty diff exhibits a key-missing path of the source -/

lemma exists_missing_of_diff_ne_nil_aux (n : Nat) : ∀ (S T : Tree), sizeOf S ≤ n →
    wfTree S = true → compute_diff S T ≠ [] →
    ∃ q, hasPath S q = true ∧ keyMissing T q = true := by
  induction n with
  | zero =>
    intro S T hsz _ _
    exact absurd hsz (by have := sizeOf_tree_pos S; omega)
  | succ n ih =>
    intro S T hsz hw hne
    cases hd0 : compute_diff S T with
    | nil => exact absurd hd0 hne
    | cons d0 ds0 =>
      obtain ⟨k, d⟩ := d0
      have hlk : lookup k (compute_diff S T) = some d := by rw [hd0]; simp [lookup]
      rcases lookup_diff_inv S T k d hw hlk with ⟨hS, hT⟩ | ⟨s, t, hS, hT, hnd, _⟩
      · exact ⟨[k], by simp [hasPath, getPath, hS], by simp [keyMissing, hT]⟩
      · have hws : wfTree s = true := wfTree_lookup_obj S k s hw hS
        have hszs : sizeOf s ≤ n := by
          have h2 := sizeOf_lookup S k (.obj s) hS
          simp at h2
          omega
        obtain ⟨q, hq1, hq2⟩ := ih s t hszs hws hnd
        cases q with
        | nil => simp [hasPath, getPath] at hq1
        | cons q1 qs =>
          refine ⟨k :: q1 :: qs, ?_, ?_⟩
          · simpa [hasPath, getPath, hS] using hq1
          · simpa [keyMissing, hT] using hq2

/-! ### Applying the diff closes the gap -/

lemma diff_merge_diff_aux (n : Nat) : ∀ (S T : Tree), sizeOf S ≤ n →
    wfTree S = true → wfTree T = true →
    compute_diff S (deep_merge T (compute_diff S T)) = [] := by
  induction n with
  | zero =>
    intro S T hsz _ _
    exact absurd hsz (by have := sizeOf_tree_pos S; omega)
  | succ n ih =>
    intro S T hsz hwS hwT
    apply eq_nil_of_forall_lookup_none
    intro k
    have hwD : wfTree (compute_diff S T) = true := wfTree_compute_diff S T hwS hwT
    cases hS : lookup k S with
    | none => exact lookup_diff_of_source_none _ _ _ hS
    | some v =>
      cases hT : lookup k T with
      | none =>
        have hD : lookup k (compute_diff S T) = some v :=
          lookup_diff_of_target_none S T k v hS hT
        cases v with
        | leaf s =>
          have hM : lookup k (deep_merge T (compute_diff S T)) = some (.leaf s) :=
            lookup_merge_of_ext_leaf T _ k s hwD hD
          exact lookup_diff_of_source_leaf S _ k s (.leaf s) hwS hS hM
        | obj s =>
          have hM : lookup k (deep_merge T (compute_diff S T)) = some (.obj s) :=
            lookup_merge_obj_none T _ k s hwD hD hT
          have hws : wfTree s = true := wfTree_lookup_obj S k s hwS hS
          have hszs : sizeOf s ≤ n := by
            have h2 := sizeOf_lookup S k (.obj s) hS
            simp at h2
            omega
          have hss : compute_diff s s = [] :=
            compute_diff_nil_of_contained_aux n s s hszs hws (fun _ _ h => h)
          exact lookup_diff_of_obj_obj_nil S _ k s s hwS hS hM hss
      | some w =>
        cases w with
        | leaf ws =>
          have hD : lookup k (compute_diff S T) = none :=
            lookup_diff_of_target_leaf S T k ws hT
          have hM : lookup k (deep_merge T (compute_diff S T)) = some (.leaf ws) := by
            rw [lookup_merge_of_ext_none T _ k hD]
            exact hT
          exact lookup_diff_of_target_leaf S _ k ws hM
        | obj t =>
          cases v with
          | leaf vs =>
            have hD : lookup k (compute_diff S T) = none :=
              lookup_diff_of_source_leaf S T k vs (.obj t) hwS hS hT
            have hM : lookup k (deep_merge T (compute_diff S T)) = some (.obj t) := by
              rw [lookup_merge_of_ext_none T _ k hD]
              exact hT
            exact lookup_diff_of_source_leaf S _ k vs (.obj t) hwS hS hM
          | obj s =>
            have hws : wfTree s = true := wfTree_lookup_obj S k s hwS hS
            have hwt : wfTree t = true := wfTree_lookup_obj T k t hwT hT
            have hszs : sizeOf s ≤ n := by
              have h2 := sizeOf_lookup S k (.obj s) hS
              simp at h2
              omega
            cases hnd : compute_diff s t with
            | nil =>
              have hD : lookup k (compute_diff S T) = none :=
                lookup_diff_of_obj_obj_nil S T k s t hwS hS hT hnd
              have hM : lookup k (deep_merge T (compute_diff S T)) = some (.obj t) := by
                rw [lookup_merge_of_ext_none T _ k hD]
                exact hT
              exact lookup_diff_of_obj_obj_nil S _ k s t hwS hS hM hnd
            | cons d ds =>
              have hne : compute_diff s t ≠ [] := by simp [hnd]
              have hD : lookup k (compute_diff S T) = some (.obj (compute_diff s t)) :=
                lookup_diff_of_obj_obj_ne_nil S T k s t hwS hS hT hne
              have hM : lookup k (deep_merge T (compute_diff S T)) =
                  some (.obj (deep_merge t (compute_diff s t))) :=
                lookup_merge_obj_obj T _ k (compute_diff s t) t hwD hD hT
              have hrec : compute_diff s (deep_merge t (compute_diff s t)) = [] :=
                ih s t hszs hws hwt
              exact lookup_diff_of_obj_obj_nil S _ k s
                (deep_merge t (compute_diff s t)) hwS hS hM hrec

/-! ### Path characterization of `compute_diff` -/

lemma hasPath_diff_imp (p : List String) : ∀ (S T : Tree), wfTree S = true →
    hasPath (compute_diff S T) p = true →
    hasPath S p = true ∧
      ∃ r, hasPath S (p ++ r) = true ∧ keyMissing T (p ++ r) = true := by
  induction p with
  | nil =>
    intro S T _ h
    simp [hasPath, getPath] at h
  | cons k p2 ih =>
    intro S T hw h
    cases p2 with
    | nil =>
      simp only [hasPath, getPath] at h
      rw [Option.isSome_iff_exists] at h
      obtain ⟨d, hlk⟩ := h
      rcases lookup_diff_inv S T k d hw hlk with ⟨hS, hT⟩ | ⟨s, t, hS, hT, hnd, _⟩
      · refine ⟨by simp [hasPath, getPath, hS], [], ?_, ?_⟩
        · simp [hasPath, getPath, hS]
        · simp [keyMissing, hT]
      · have hws : wfTree s = true := wfTree_lookup_obj S k s hw hS
        obtain ⟨q, hq1, hq2⟩ :=
          exists_missing_of_diff_ne_nil_aux (sizeOf s) s t le_rfl hws hnd
        cases q with
        | nil => simp [hasPath, getPath] at hq1
        | cons q1 qs =>
          refine ⟨by simp [hasPath, getPath, hS], q1 :: qs, ?_, ?_⟩
          · simpa [hasPath, getPath, hS] using hq1
          · simpa [keyMissing, hT] using hq2
    | cons p21 p2s =>
      simp only [hasPath, getPath] at h
      cases hlk : lookup k (compute_diff S T) with
      | none => rw [hlk] at h; simp at h
      | some d =>
        rw [hlk] at h
        cases d with
        | leaf s0 => simp at h
        | obj d2 =>
          simp only [Option.isSome] at h
          rcases lookup_diff_inv S T k (.obj d2) hw hlk with ⟨hS, hT⟩ | ⟨s, t, hS, hT, hnd, hdv⟩
          · refine ⟨?_, [], ?_, ?_⟩
            · simpa [hasPath, getPath, hS] using h
            · simpa [hasPath, getPath, hS] using h
            · simp [keyMissing, hT]
          · injection hdv with hdv2
            subst hdv2
            have hws : wfTree s = true := wfTree_lookup_obj S k s hw hS
            have hrec := ih s t hws (by simpa [hasPath] using h)
            obtain ⟨h1, r, h2, h3⟩ := hrec
            refine ⟨?_, r, ?_, ?_⟩
            · simpa [hasPath, getPath, hS] using h1
            · simpa [hasPath, getPath, hS] using h2
            · simpa [keyMissing, hT] using h3

lemma hasPath_diff_of_missing (q : List String) : ∀ (S T : Tree) (p r : List String),
    wfTree S = true → p ++ r = q → hasPath S p = true → hasPath S q = true →
    keyMissing T q = true → hasPath (compute_diff S T) p = true := by
  induction q with
  | nil =>
    intro S T p r _ happ hp _ _
    have hpnil : p = [] := by
      cases p with
      | nil => rfl
      | cons a as => simp at happ
    subst hpnil
    simp [hasPath, getPath] at hp
  | cons k q2 ihq =>
    intro S T p r hw happ hp hq hm
    cases p with
    | nil => simp [hasPath, getPath] at hp
    | cons k0 p2 =>
      have hk0 : k0 = k := by
        rw [List.cons_append] at happ
        exact (List.cons.injEq _ _ _ _ ▸ happ).1
      subst hk0
      have happ2 : p2 ++ r = q2 := by
        rw [List.cons_append] at happ
        exact (List.cons.injEq _ _ _ _ ▸ happ).2
      cases hT : lookup k0 T with
      | none =>
        cases hS : lookup k0 S with
        | none =>
          cases p2 with
          | nil => simp [hasPath, getPath, hS] at hp
          | cons p21 p2s => simp [hasPath, getPath, hS] at hp
        | some v =>
          have hD : lookup k0 (compute_diff S T) = some v :=
            lookup_diff_of_target_none S T k0 v hS hT
          cases p2 with
          | nil => simp [hasPath, getPath, hD]
          | cons p21 p2s =>
            cases v with
            | leaf s0 => simp [hasPath, getPath, hS] at hp
            | obj sp =>
              simp only [hasPath, getPath, hS] at hp
              simp only [hasPath, getPath, hD]
              exact hp
      | some w =>
        cases w with
        | leaf ws =>
          cases q2 with
          | nil => simp [keyMissing, hT] at hm
          | cons q21 q2s => simp [keyMissing, hT] at hm
        | obj t =>
          cases q2 with
          | nil => simp [keyMissing, hT] at hm
          | cons q21 q2s =>
            have hmt : keyMissing t (q21 :: q2s) = true := by
              simpa [keyMissing, hT] using hm
            cases hS : lookup k0 S with
            | none => simp [hasPath, getPath, hS] at hq
            | some v =>
              cases v with
              | leaf s0 => simp [hasPath, getPath, hS] at hq
              | obj s =>
                have hqs : hasPath s (q21 :: q2s) = true := by
                  simpa [hasPath, getPath, hS] using hq
                have hws : wfTree s = true := wfTree_lookup_obj S k0 s hw hS
                cases p2 with
                | nil =>
                  have hsub : hasPath (compute_diff s t) (q21 :: q2s) = true :=
                    ihq s t (q21 :: q2s) [] hws (by simp) hqs hqs hmt
                  have hne : compute_diff s t ≠ [] := by
                    intro he
                    rw [he, hasPath_nil] at hsub
                    cases hsub
                  have hD := lookup_diff_of_obj_obj_ne_nil S T k0 s t hw hS hT hne
                  simp [hasPath, getPath, hD]
                | cons p21 p2s =>
                  have hps : hasPath s (p21 :: p2s) = true := by
                    simpa [hasPath, getPath, hS] using hp
                  have hsub : hasPath (compute_diff s t) (p21 :: p2s) = true :=
                    ihq s t (p21 :: p2s) r hws happ2 hps hqs hmt
                  have hne : compute_diff s t ≠ [] := by
                    intro he
                    rw [he, hasPath_nil] at hsub
                    cases hsub
                  have hD := lookup_diff_of_obj_obj_ne_nil S T k0 s t hw hS hT hne
                  simp only [hasPath, getPath, hD]
                  simpa [hasPath] using hsub

/-! ### Path behavior of `deep_merge` -/

lemma getPath_merge_of_missing (p : List String) : ∀ (T A : Tree) (v : String),
    wfTree A = true → getPath T p = some (.leaf v) → keyMissing A p = true →
    getPath (deep_merge T A) p = some (.leaf v) := by
  induction p with
  | nil =>
    intro T A v _ hT _
    simp [getPath] at hT
  | cons k p2 ih =>
    intro T A v hw hT hm
    cases p2 with
    | nil =>
      have hA : lookup k A = none := by
        simpa [keyMissing, Option.isNone_iff_eq_none] using hm
      simp only [getPath] at hT
      simp only [getPath]
      rw [lookup_merge_of_ext_none T A k hA]
      exact hT
    | cons p21 p2s =>
      simp only [getPath] at hT
      cases hTk : lookup k T with
      | none => rw [hTk] at hT; cases hT
      | some w =>
        rw [hTk] at hT
        cases w with
        | leaf s0 => cases hT
        | obj t2 =>
          simp only at hT
          cases hAk : lookup k A with
          | none =>
            simp only [getPath]
            rw [lookup_merge_of_ext_none T A k hAk, hTk]
            exact hT
          | some w2 =>
            cases w2 with
            | leaf s1 => simp [keyMissing, hAk] at hm
            | obj a2 =>
              have hm2 : keyMissing a2 (p21 :: p2s) = true := by
                simpa [keyMissing, hAk] using hm
              have hwa2 : wfTree a2 = true := wfTree_lookup_obj A k a2 hw hAk
              have hM := lookup_merge_obj_obj T A k a2 t2 hw hAk hTk
              simp only [getPath, hM]
              exact ih t2 a2 v hwa2 hT hm2

lemma getPath_merge_of_ext (p : List String) : ∀ (T A : Tree) (v : String),
    wfTree A = true → getPath A p = some (.leaf v) →
    getPath (deep_merge T A) p = some (.leaf v) := by
  induction p with
  | nil =>
    intro T A v _ hA
    simp [getPath] at hA
  | cons k p2 ih =>
    intro T A v hw hA
    cases p2 with
    | nil =>
      simp only [getPath] at hA
      simp only [getPath]
      exact lookup_merge_of_ext_leaf T A k v hw hA
    | cons p21 p2s =>
      simp only [getPath] at hA
      cases hAk : lookup k A with
      | none => rw [hAk] at hA; cases hA
      | some w =>
        rw [hAk] at hA
        cases w with
        | leaf s0 => cases hA
        | obj a2 =>
          simp only at hA
          have hwa2 : wfTree a2 = true := wfTree_lookup_obj A k a2 hw hAk
          cases hTk : lookup k T with
          | none =>
            have hM := lookup_merge_obj_none T A k a2 hw hAk hTk
            simp only [getPath, hM]
            exact hA
          | some w2 =>
            cases w2 with
            | leaf s1 =>
              have hM := lookup_merge_obj_leaf T A k a2 s1 hw hAk hTk
              simp only [getPath, hM]
              exact hA
            | obj t2 =>
              have hM := lookup_merge_obj_obj T A k a2 t2 hw hAk hTk
              simp only [getPath, hM]
              exact ih t2 a2 v hwa2 hA

/-! ### Claim C1: which paths the diff contains -/

/-- Claim C1 (corrected).  The amended statement: `compute_diff S T` contains
a path `p` iff `p` exists in `S` and some extension of `p` (possibly `p`
itself) exists in `S` and has a traversal in `T` that fails at an absent key.
In particular a path whose traversal in `T` is blocked by a leaf (a
structural mismatch) is omitted, not included. -/
theorem diff_contains_path_iff (S T : Tree) (p : List String) (hw : wfTree S = true) :
    hasPath (compute_diff S T) p = true ↔
      hasPath S p = true ∧
        ∃ r, hasPath S (p ++ r) = true ∧ keyMissing T (p ++ r) = true := by
  constructor
  · exact hasPath_diff_imp p S T hw
  · rintro ⟨hp, r, hq, hm⟩
    exact hasPath_diff_of_missing (p ++ r) S T p r hw rfl hp hq hm

/-- Claim C1, counterexample to the original statement: with
`S = {"a": {"b": "x"}}` and `T = {"a": "y"}` the path `["a"]` exists in `S`
and exists in `T` with a structural mismatch (nested Tree vs leaf), yet the
diff does not contain it — `compute_diff` omits mismatched keys. -/
theorem diff_contains_path_claim_false :
    hasPath [("a", JValue.obj [("b", JValue.leaf "x")])] ["a"] = true ∧
    getPath [("a", JValue.obj [("b", JValue.leaf "x")])] ["a"] =
      some (.obj [("b", JValue.leaf "x")]) ∧
    getPath [("a", JValue.leaf "y")] ["a"] = some (.leaf "y") ∧
    isObj (JValue.obj [("b", JValue.leaf "x")]) = true ∧
    isObj (JValue.leaf "y") = false ∧
    hasPath (compute_diff [("a", JValue.obj [("b", JValue.leaf "x")])]
      [("a", JValue.leaf "y")]) ["a"] = false := by
  simp [hasPath, getPath, lookup, compute_diff, isObj]

/-- Claim C1, witness instantiating the amended theorem. -/
theorem diff_contains_path_iff_witness :
    wfTree [("a", JValue.obj [("b", JValue.leaf "x")])] = true ∧
    (hasPath (compute_diff [("a", JValue.obj [("b", JValue.leaf "x")])] []) ["a"] = true ↔
      hasPath [("a", JValue.obj [("b", JValue.leaf "x")])] ["a"] = true ∧
        ∃ r, hasPath [("a", JValue.obj [("b", JValue.leaf "x")])] (["a"] ++ r) = true ∧
          keyMissing [] (["a"] ++ r) = true) :=
  ⟨by simp [wfTree, wfVal, lookup],
   diff_contains_path_iff [("a", JValue.obj [("b", JValue.leaf "x")])] [] ["a"]
     (by simp [wfTree, wfVal, lookup])⟩

/-! ### Claim C2: merge non-destructiveness -/

/-- Claim C2 (corrected).  The amended statement: `deep_merge T A` never
removes a key of `T`, and every leaf path of `T` whose traversal in `A`
fails at an absent key appears unchanged in the merged result.  (A leaf
path of `T` that is merely absent from `A` because `A` holds a leaf at a
proper prefix is overwritten, not preserved — see the counterexample.) -/
theorem merge_preserves_unaffected (T A : Tree) (hw : wfTree A = true) :
    (∀ k, (lookup k T).isSome = true → (lookup k (deep_merge T A)).isSome = true) ∧
    (∀ p v, getPath T p = some (.leaf v) → keyMissing A p = true →
      getPath (deep_merge T A) p = some (.leaf v)) :=
  ⟨fun k h => lookup_merge_isSome T A k h,
   fun p v h1 h2 => getPath_merge_of_missing p T A v hw h1 h2⟩

/-- Claim C2, counterexample to the original statement: with
`T = {"a": {"b": "x"}}` and `A = {"a": "y"}` the leaf path `["a","b"]` of
`T` is not present in `A`, yet it does not survive the merge: `A`'s leaf
overwrites the whole subtree at `"a"`. -/
theorem merge_preserves_claim_false :
    getPath [("a", JValue.obj [("b", JValue.leaf "x")])] ["a", "b"] =
      some (.leaf "x") ∧
    hasPath [("a", JValue.leaf "y")] ["a", "b"] = false ∧
    getPath (deep_merge [("a", JValue.obj [("b", JValue.leaf "x")])]
      [("a", JValue.leaf "y")]) ["a", "b"] = none := by
  simp [getPath, hasPath, lookup, deep_merge, setKey]

/-- Claim C2, witness instantiating the amended theorem at
`T = {"a": "x", "c": "z"}`, `A = {"a": "w"}`, leaf path `["c"]`. -/
theorem merge_preserves_unaffected_witness :
    wfTree [("a", JValue.leaf "w")] = true ∧
    getPath [("a", JValue.leaf "x"), ("c", JValue.leaf "z")] ["c"] =
      some (.leaf "z") ∧
    keyMissing [("a", JValue.leaf "w")] ["c"] = true ∧
    getPath (deep_merge [("a", JValue.leaf "x"), ("c", JValue.leaf "z")]
      [("a", JValue.leaf "w")]) ["c"] = some (.leaf "z") :=
  ⟨by simp [wfTree, wfVal, lookup],
   by simp [getPath, lookup],
   by simp [keyMissing, lookup],
   (merge_preserves_unaffected [("a", JValue.leaf "x"), ("c", JValue.leaf "z")]
       [("a", JValue.leaf "w")] (by simp [wfTree, wfVal, lookup])).2
     ["c"] "z" (by simp [getPath, lookup]) (by simp [keyMissing, lookup])⟩

/-! ### Claim C3: merge overwrite -/

/-- Claim C3 (confirmed).  Every leaf path of `A` appears in
`deep_merge T A` with `A`'s value, regardless of what `T` held there
(nothing, a leaf, or a nested Tree). -/
theorem merge_overwrite (T A : Tree) (p : List String) (v : String)
    (hw : wfTree A = true) (h : getPath A p = some (.leaf v)) :
    getPath (deep_merge T A) p = some (.leaf v) :=
  getPath_merge_of_ext p T A v hw h

/-- Claim C3, witness: `T = {"a": {"b": "old"}}`, `A = {"a": "new"}`. -/
theorem merge_overwrite_witness :
    wfTree [("a", JValue.leaf "new")] = true ∧
    getPath [("a", JValue.leaf "new")] ["a"] = some (.leaf "new") ∧
    getPath (deep_merge [("a", JValue.obj [("b", JValue.leaf "old")])]
      [("a", JValue.leaf "new")]) ["a"] = some (.leaf "new") :=
  ⟨by simp [wfTree, wfVal, lookup],
   by simp [getPath, lookup],
   merge_overwrite [("a", JValue.obj [("b", JValue.leaf "old")])]
     [("a", JValue.leaf "new")] ["a"] "new"
     (by simp [wfTree, wfVal, lookup]) (by simp [getPath, lookup])⟩

/-! ### Claim C4: applying a translation closes the gap -/

/-- Claim C4 (confirmed).  For well-formed trees, merging the diff back
into the target (the provider modeled as the identity on the DiffTree)
leaves nothing to diff: `compute_diff S (deep_merge T (compute_diff S T))`
is empty. -/
theorem diff_after_merge_empty (S T : Tree)
    (hwS : wfTree S = true) (hwT : wfTree T = true) :
    compute_diff S (deep_merge T (compute_diff S T)) = [] :=
  diff_merge_diff_aux (sizeOf S) S T le_rfl hwS hwT

/-- Claim C4, witness: `S = {"a": "1", "b": {"c": "2"}}`, `T = {"a": "t"}`. -/
theorem diff_after_merge_empty_witness :
    wfTree [("a", JValue.leaf "1"), ("b", JValue.obj [("c", JValue.leaf "2")])] = true ∧
    wfTree [("a", JValue.leaf "t")] = true ∧
    compute_diff [("a", JValue.leaf "1"), ("b", JValue.obj [("c", JValue.leaf "2")])]
      (deep_merge [("a", JValue.leaf "t")]
        (compute_diff [("a", JValue.leaf "1"), ("b", JValue.obj [("c", JValue.leaf "2")])]
          [("a", JValue.leaf "t")])) = [] :=
  ⟨by simp [wfTree, wfVal, lookup],
   by simp [wfTree, wfVal, lookup],
   diff_after_merge_empty
     [("a", JValue.leaf "1"), ("b", JValue.obj [("c", JValue.leaf "2")])]
     [("a", JValue.leaf "t")]
     (by simp [wfTree, wfVal, lookup]) (by simp [wfTree, wfVal, lookup])⟩

/-! ### Claim C5: when the diff is empty -/

/-- Claim C5 (corrected).  The amended statement: `compute_diff S T` is
empty iff no path of `S` has a traversal in `T` failing at an absent key.
(This is weaker than "T contains every path of S": a path of `S` blocked
in `T` by a leaf at a prefix — a structural mismatch — also yields an
empty diff, per the policy of §4.1.) -/
theorem diff_empty_iff (S T : Tree) (hw : wfTree S = true) :
    compute_diff S T = [] ↔
      ∀ p, hasPath S p = true → keyMissing T p = false := by
  constructor
  · intro hnil p hp
    cases hm : keyMissing T p with
    | false => rfl
    | true =>
      have hin := hasPath_diff_of_missing p S T p [] hw (List.append_nil p) hp hp hm
      rw [hnil, hasPath_nil] at hin
      cases hin
  · intro h
    cases hd : compute_diff S T with
    | nil => rfl
    | cons d ds =>
      have hne : compute_diff S T ≠ [] := by rw [hd]; simp
      obtain ⟨q, hq1, hq2⟩ :=
        exists_missing_of_diff_ne_nil_aux (sizeOf S) S T le_rfl hw hne
      rw [h q hq1] at hq2
      cases hq2

/-- Claim C5, counterexample to the original statement: with
`S = {"a": {"b": "x"}}` and `T = {"a": "y"}` the diff is empty although
`T` does not contain the path `["a","b"]` that `S` has. -/
theorem diff_empty_claim_false :
    compute_diff [("a", JValue.obj [("b", JValue.leaf "x")])]
      [("a", JValue.leaf "y")] = [] ∧
    hasPath [("a", JValue.obj [("b", JValue.leaf "x")])] ["a", "b"] = true ∧
    hasPath [("a", JValue.leaf "y")] ["a", "b"] = false := by
  simp [compute_diff, lookup, hasPath, getPath]

/-- Claim C5, witness instantiating the amended theorem at
`S = {"a": "x"}`, `T = {"a": "t"}`, path `["a"]`. -/
theorem diff_empty_iff_witness :
    wfTree [("a", JValue.leaf "x")] = true ∧
    compute_diff [("a", JValue.leaf "x")] [("a", JValue.leaf "t")] = [] ∧
    hasPath [("a", JValue.leaf "x")] ["a"] = true ∧
    keyMissing [("a", JValue.leaf "t")] ["a"] = false :=
  ⟨by simp [wfTree, wfVal, lookup],
   by simp [compute_diff, lookup],
   by simp [hasPath, getPath, lookup],
   (diff_empty_iff [("a", JValue.leaf "x")] [("a", JValue.leaf "t")]
       (by simp [wfTree, wfVal, lookup])).mp
     (by simp [compute_diff, lookup]) ["a"]
     (by simp [hasPath, getPath, lookup])⟩

/-! ### Claim C6: mismatched keys are omitted -/

/-- Claim C6 (confirmed).  A key present in both trees with at least one
side not a nested Tree (both leaves, or a leaf/Tree mismatch) is omitted
from the diff: it is treated as already translated. -/
theorem diff_omits_mismatched_key (S T : Tree) (k : String) (v w : JValue)
    (hw : wfTree S = true) (hS : lookup k S = some v) (hT : lookup k T = some w)
    (h : isObj v = false ∨ isObj w = false) :
    lookup k (compute_diff S T) = none := by
  cases v with
  | leaf s => exact lookup_diff_of_source_leaf S T k s w hw hS hT
  | obj s =>
    cases w with
    | leaf t0 => exact lookup_diff_of_target_leaf S T k t0 hT
    | obj t0 =>
      rcases h with h | h <;> simp [isObj] at h

/-- Claim C6, witness: `S = {"a": {}}`, `T = {"a": "x"}` (type mismatch). -/
theorem diff_omits_mismatched_key_witness :
    wfTree [("a", JValue.obj [])] = true ∧
    lookup "a" [("a", JValue.obj [])] = some (.obj []) ∧
    lookup "a" [("a", JValue.leaf "x")] = some (.leaf "x") ∧
    lookup "a" (compute_diff [("a", JValue.obj [])] [("a", JValue.leaf "x")]) = none :=
  ⟨by simp [wfTree, wfVal, lookup],
   by simp [lookup],
   by simp [lookup],
   diff_omits_mismatched_key [("a", JValue.obj [])] [("a", JValue.leaf "x")] "a"
     (.obj []) (.leaf "x") (by simp [wfTree, wfVal, lookup])
     (by simp [lookup]) (by simp [lookup]) (Or.inr (by simp [isObj]))⟩

/-! ### Claim C7: empty diff short-circuits the pipeline -/

/-- Claim C7 (confirmed).  When the diff of the loaded source and target is
empty, the run returns successfully as a no-op: zero provider calls and
nothing written (the target artifact is untouched). -/
theorem noop_run_short_circuits (s t : Tree) (provider : Tree → Response)
    (h : compute_diff s t = []) :
    translate_file (.ok s) (.ok t) provider =
      ⟨0, none, .noop⟩ := by
  simp [translate_file, run_pipeline, h]

/-- Claim C7, witness: identical singleton source and target. -/
theorem noop_run_short_circuits_witness :
    compute_diff [("greeting", JValue.leaf "Hello")]
      [("greeting", JValue.leaf "Hallo")] = [] ∧
    translate_file (.ok [("greeting", JValue.leaf "Hello")])
      (.ok [("greeting", JValue.leaf "Hallo")])
      (fun _ => Response.invalid "never called") = ⟨0, none, .noop⟩ :=
  ⟨by simp [compute_diff, lookup],
   noop_run_short_circuits [("greeting", JValue.leaf "Hello")]
     [("greeting", JValue.leaf "Hallo")] (fun _ => Response.invalid "never called")
     (by simp [compute_diff, lookup])⟩

/-! ### Claim C8: malformed provider response -/

/-- Claim C8 (confirmed).  When the provider's response text is not valid
JSON, the run fails with a parse error carrying the raw response text, one
provider call was made, and nothing is written: merge and persist are
never reached. -/
theorem parse_error_aborts_without_write (s t : Tree) (provider : Tree → Response)
    (raw : String) (hne : compute_diff s t ≠ [])
    (hresp : provider (compute_diff s t) = .invalid raw) :
    translate_file (.ok s) (.ok t) provider =
      ⟨1, none, .parseError raw⟩ := by
  cases hd : compute_diff s t with
  | nil => exact absurd hd hne
  | cons d ds =>
    rw [hd] at hresp
    simp [translate_file, run_pipeline, hd, hresp]

/-- Claim C8, witness: a provider that always answers non-JSON text. -/
theorem parse_error_aborts_without_write_witness :
    compute_diff [("a", JValue.leaf "x")] [] ≠ [] ∧
    translate_file (.ok [("a", JValue.leaf "x")]) (.ok [])
      (fun _ => Response.invalid "oops not json") =
      ⟨1, none, .parseError "oops not json"⟩ :=
  ⟨by simp [compute_diff, lookup],
   parse_error_aborts_without_write [("a", JValue.leaf "x")] []
     (fun _ => Response.invalid "oops not json") "oops not json"
     (by simp [compute_diff, lookup]) rfl⟩

/-! ### Claim C9: load semantics -/

/-- Claim C9 (confirmed).  A missing target file is not an error: the run
proceeds with the empty tree as target.  A missing or unreadable source
file, or a present-but-malformed target file, aborts the run with a load
error (no provider call, no write). -/
theorem load_error_semantics (s : Tree) (tgt : LoadResult) (provider : Tree → Response) :
    translate_file (.ok s) .notFound provider = run_pipeline s [] provider ∧
    translate_file .notFound tgt provider = ⟨0, none, .loadError⟩ ∧
    translate_file .failed tgt provider = ⟨0, none, .loadError⟩ ∧
    translate_file (.ok s) .failed provider = ⟨0, none, .loadError⟩ :=
  ⟨rfl, rfl, rfl, rfl⟩

/-! ### Claim C10: empty nested objects in the diff -/

/-- Claim C10 (corrected).  The amended statement: when the source has a
key mapped to an empty nested Tree and the target lacks that key, the diff
contains that key mapped to the empty Tree and is non-empty, so the
pipeline does not short-circuit: it invokes the provider.  `count_keys`
of the diff is 0 when the source consists of exactly that key (with
further untranslated leaves in the source the count is positive, refuting
the original universal "count is 0"). -/
theorem empty_subtree_diff (k : String) (S T : Tree) (provider : Tree → Response)
    (hS : lookup k S = some (.obj [])) (hT : lookup k T = none) :
    lookup k (compute_diff S T) = some (.obj []) ∧
    compute_diff S T ≠ [] ∧
    (run_pipeline S T provider).providerCalls = 1 ∧
    (run_pipeline S T provider).outcome ≠ .noop ∧
    count_keys (compute_diff [(k, .obj [])] T) = 0 := by
  have h1 : lookup k (compute_diff S T) = some (.obj []) :=
    lookup_diff_of_target_none S T k (.obj []) hS hT
  have h2 : compute_diff S T ≠ [] := by
    intro he
    rw [he] at h1
    simp [lookup] at h1
  refine ⟨h1, h2, ?_, ?_, ?_⟩
  · cases hd : compute_diff S T with
    | nil => exact absurd hd h2
    | cons d ds =>
      cases hp : provider (d :: ds) <;> simp [run_pipeline, hd, hp]
  · cases hd : compute_diff S T with
    | nil => exact absurd hd h2
    | cons d ds =>
      cases hp : provider (d :: ds) <;> simp [run_pipeline, hd, hp]
  · simp [compute_diff, hT, count_keys]

/-- Claim C10, counterexample to the original statement: with
`S = {"a": {}, "b": "x"}` and `T = {}` the configuration of the claim holds
(a key with an empty nested Tree value, absent from the target) but
`count_keys` of the diff is 1, not 0. -/
theorem empty_subtree_count_claim_false :
    lookup "a" [("a", JValue.obj []), ("b", JValue.leaf "x")] = some (.obj []) ∧
    lookup "a" ([] : Tree) = none ∧
    lookup "a" (compute_diff [("a", JValue.obj []), ("b", JValue.leaf "x")] []) =
      some (.obj []) ∧
    count_keys (compute_diff [("a", JValue.obj []), ("b", JValue.leaf "x")] []) = 1 := by
  simp [lookup, compute_diff, count_keys]

/-- Claim C10, witness: `S = {"menu": {}}`, `T = {}`. -/
theorem empty_subtree_diff_witness :
    lookup "menu" [("menu", JValue.obj [])] = some (.obj []) ∧
    lookup "menu" ([] : Tree) = none ∧
    (lookup "menu" (compute_diff [("menu", JValue.obj [])] []) = some (.obj []) ∧
     compute_diff [("menu", JValue.obj [])] [] ≠ [] ∧
     (run_pipeline [("menu", JValue.obj [])] []
       (fun _ => Response.invalid "x")).providerCalls = 1 ∧
     (run_pipeline [("menu", JValue.obj [])] []
       (fun _ => Response.invalid "x")).outcome ≠ .noop ∧
     count_keys (compute_diff [("menu", JValue.obj [])] []) = 0) :=
  ⟨by simp [lookup],
   by simp [lookup],
   empty_subtree_diff "menu" [("menu", JValue.obj [])] []
     (fun _ => Response.invalid "x") (by simp [lookup]) (by simp [lookup])⟩

end DeepseekTranslator
